import Mathlib

/-!
Verification development for the graph-eigenvalue repository.

The Python sources under scrutiny are `find_analytic_graphs.py` and
`verify_universe_positions.py`.  The combinatorial parts (edge-set
enumeration, degree sequences, connectivity, family identification, the
degree-cutoff gate, and the two-pass enumeration driver) are embedded as
executable Lean functions.  The symbolic-algebra calls into sympy
(`Matrix.det`, `factor_list`, `roots`, `simplify`) cannot be embedded
whole; they are represented by their observable behaviour: a
characteristic-polynomial oracle that may fail (the spec's "internal
resource exhaustion"), a factor-degree list, and root expressions carrying
exactly the observables the code queries (`has(Float)`, `has(RootOf)`,
`'CRootOf' in str(...)`, the Gaussian value used by
`classify_eigenvalue`).  All driver control flow, bucket accounting,
grouping and sorting is translated statement by statement from the source.
-/

namespace GraphEig

/-! ### Graph basics: degrees and connectivity

`deg_in edges v` is the number of edges incident to `v`, matching
`networkx` degrees for duplicate-free edge lists (the enumerator only
produces such lists).  `is_connected` is a bounded breadth-first closure
from vertex 0, matching `nx.is_connected` on graphs with vertex set
`range n`; the code guards it with `if n > 0 else False`. -/

def deg_in (edges : List (Nat × Nat)) (v : Nat) : Nat :=
  (edges.filter (fun e => e.1 == v || e.2 == v)).length

def adjacent (edges : List (Nat × Nat)) (u v : Nat) : Bool :=
  edges.any (fun e => (e.1 == u && e.2 == v) || (e.1 == v && e.2 == u))

def expandStep (n : Nat) (edges : List (Nat × Nat)) (s : List Nat) : List Nat :=
  (List.range n).filter (fun v => s.contains v || s.any (fun u => adjacent edges u v))

def reachable (n : Nat) (edges : List (Nat × Nat)) : List Nat :=
  (expandStep n edges)^[n] [0]

def is_connected (n : Nat) (edges : List (Nat × Nat)) : Bool :=
  if 0 < n then (List.range n).all (fun v => (reachable n edges).contains v) else false

/-- Descending sort, as Python's `sorted(..., reverse=True)`: a stable
sort by the reversed order (insertion sort is stable, like Python's). -/
def sortDesc (l : List Nat) : List Nat := List.insertionSort (fun a b => b ≤ a) l

/-- `sorted([d for _, d in G.degree()], reverse=True)`. -/
def degreesOf (n : Nat) (edges : List (Nat × Nat)) : List Nat :=
  sortDesc ((List.range n).map (deg_in edges))

/-! ### FamilyIdentifier (`identify_graph_family`, lines 344-396) -/

def KNOWN_ANALYTIC_FAMILIES : List String :=
  ["Empty graph", "Complete graph", "Cycle graph", "Path graph", "Star graph"]

def identify_graph_family (n : Nat) (edges : List (Nat × Nat)) :
    Option String × Option String :=
  let m := edges.length
  let conn := is_connected n edges
  let degrees := degreesOf n edges
  if m == 0 then
    (some "Empty graph", some ("Empty graph E_" ++ toString n))
  else if m == n * (n - 1) / 2 then
    (some "Complete graph", some ("Complete graph K_" ++ toString n))
  else if conn && (m == n) && degrees.all (fun d => d == 2) then
    (some "Cycle graph", some ("Cycle graph C_" ++ toString n))
  else if conn && (m == n - 1) &&
      degrees == sortDesc ([1, 1] ++ List.replicate (n - 2) 2) then
    (some "Path graph", some ("Path graph P_" ++ toString n))
  else if conn && (m == n - 1) &&
      degrees == sortDesc ([n - 1] ++ List.replicate (n - 1) 1) then
    (some "Star graph", some ("Star graph S_" ++ toString n))
  else if conn && (m == 2 * (n - 1)) && (degrees.headD 0 == n - 1) &&
      degrees.tail.all (fun d => d == 3) then
    (some "Wheel graph", some ("Wheel graph W_" ++ toString n))
  else if conn && (n % 2 == 0) && (m == 3 * (n / 2) - 2) &&
      degrees.all (fun d => d == 2 || d == 3) then
    (some "Ladder graph", some ("Ladder graph L_" ++ toString (n / 2)))
  else if (degrees.dedup.length == 1) && (0 < degrees.headD 0) then
    (none, some (toString (degrees.headD 0) ++ "-regular graph on " ++
      toString n ++ " vertices"))
  else if conn && (m == n - 1) then
    (some "Tree", some ("Tree on " ++ toString n ++ " vertices"))
  else
    (none, none)

/-! ### Enumerator (`generate_all_edge_sets`, lines 62-71) -/

/-- `[(i, j) for i in range(n) for j in range(i+1, n)]`
(`range(i+1, n)` is `List.range' (i+1) (n-(i+1))`). -/
def possible_edges (n : Nat) : List (Nat × Nat) :=
  (List.range n).flatMap (fun i =>
    (List.range' (i + 1) (n - (i + 1))).map (fun j => (i, j)))

/-- `itertools.combinations l r`: all `r`-element sublists of `l`,
in the order itertools yields them. -/
def combos : List α → Nat → List (List α)
  | _, 0 => [[]]
  | [], _ + 1 => []
  | a :: l, r + 1 => (combos l r).map (fun c => a :: c) ++ combos l (r + 1)

/-- `generate_all_edge_sets`: for each size `r` from `0` to the number of
possible edges, every `r`-combination of the possible edges. -/
def generate_all_edge_sets (n : Nat) : List (List (Nat × Nat)) :=
  (List.range ((possible_edges n).length + 1)).flatMap (combos (possible_edges n))

/-! ### MatrixBuilder (`make_skew_symmetric_matrix`, lines 112-122) -/

def setMat (A : List (List Int)) (i j : Nat) (v : Int) : List (List Int) :=
  A.set i ((A.getD i []).set j v)

def make_skew_symmetric_matrix (n : Nat) (edges : List (Nat × Nat)) :
    List (List Int) :=
  edges.foldl (fun A e =>
    if e.1 < e.2 then setMat (setMat A e.1 e.2 1) e.2 e.1 (-1)
    else setMat (setMat A e.2 e.1 1) e.1 e.2 (-1))
    (List.replicate n (List.replicate n 0))

/-! ### Symbolic layer

`Factor` is one entry of `factor_list(char_poly, var)[1]`: an irreducible
factor reduced to what the gate reads, its degree, plus its multiplicity.
`SymExpr` is a sympy root expression reduced to the observables the code
queries: `expr.has(Float)`, `expr.has(RootOf)`, `'CRootOf' in str(expr)`,
and the complex value `re + im*I` that `classify_eigenvalue` works on
(the development evaluates it on Gaussian-rational values; `simplify` is
the identity on the value). -/

structure Factor where
  deg : Nat
  mult : Nat
deriving DecidableEq, Repr

structure SymExpr where
  hasFloat : Bool
  hasRootOf : Bool
  strHasCRootOf : Bool
  re : ℚ
  im : ℚ
deriving DecidableEq, Repr

/-- `MAX_ANALYTIC_DEGREE = 4` (line 56). -/
def MAX_ANALYTIC_DEGREE : Nat := 4

/-- `check_degree_cutoff` (lines 142-159): `True` (skip) as soon as some
irreducible factor has degree `> MAX_ANALYTIC_DEGREE`, else `False`
(proceed).  The `except` branch returning `False` is unreachable here:
the factor list is already given. -/
def check_degree_cutoff (factors : List Factor) : Bool :=
  factors.any (fun f => MAX_ANALYTIC_DEGREE < f.deg)

/-- `is_nice_closed_form` (lines 174-191): `None` is rejected, then
Float content, then `RootOf` / a `CRootOf` substring of `str(expr)`. -/
def is_nice_closed_form : Option SymExpr → Bool
  | none => false
  | some e => if e.hasFloat then false
    else if e.hasRootOf || e.strHasCRootOf then false
    else true

/-- Division of `a + b*I` by `I`: `(a + b*I)/I = b - a*I`. -/
def divI (a b : ℚ) : ℚ × ℚ := (b, -a)

/-- sympy's `is_real` on an exact complex value: zero imaginary part. -/
def isRealPair (p : ℚ × ℚ) : Bool := p.2 == 0

/-- The display string of an eigenvalue, kept structured rather than
rendered: `zeroD` for `'0'`, `pmI c` for `f'±{abs_coeff}i'` with
`c = abs_coeff`, `raw` for `str(simp)` in the error branch. -/
inductive Display
  | zeroD
  | pmI (c : ℚ)
  | raw (re im : ℚ)
deriving DecidableEq, Repr

/-- `classify_eigenvalue` (lines 194-216).  `simp = simplify(eig)` is the
value itself; `coeff = simp / I`; the pure-imaginary branch displays
`±|coeff|i`.  The `except` fallback `('unknown', ...)` has no
counterpart: no step here can raise. -/
def classify_eigenvalue (e : SymExpr) : String × Display :=
  if e.re == 0 && e.im == 0 then ("zero", Display.zeroD)
  else
    let coeff := divI e.re e.im
    if isRealPair coeff then ("pure_imaginary", Display.pmI |coeff.1|)
    else ("complex/error", Display.raw e.re e.im)

/-- One entry of the `results` list built by `analyze_eigenvalues`. -/
structure EigRecord where
  multiplicity : Nat
  category : String
  display : Display
  is_nice : Bool
deriving DecidableEq, Repr

/-- The dictionary returned by `analyze_eigenvalues`. -/
structure Analysis where
  all_analytic : Bool
  eigenvalues : List EigRecord
  skipped_reason : Option String
  summary : String
deriving DecidableEq, Repr

/-- `find_eigenvalues` (lines 162-171): `roots` with failures mapped to
`None`; in the embedding the solver's outcome is the supplied value. -/
def find_eigenvalues (rootsRes : Option (List (SymExpr × Nat))) :
    Option (List (SymExpr × Nat)) := rootsRes

/-- `analyze_eigenvalues` (lines 283-337): the degree-cutoff gate, then
root-finding, then per-root niceness and classification, `all_analytic`
being the conjunction of the per-root niceness flags. -/
def analyze_eigenvalues (factors : List Factor)
    (rootsRes : Option (List (SymExpr × Nat))) : Analysis :=
  if check_degree_cutoff factors then
    { all_analytic := false
      eigenvalues := []
      skipped_reason := some ("irreducible_factor_degree>" ++ toString MAX_ANALYTIC_DEGREE)
      summary := "Skipped: Contains irreducible factor of degree > " ++
        toString MAX_ANALYTIC_DEGREE }
  else
    match find_eigenvalues rootsRes with
    | none =>
      { all_analytic := false
        eigenvalues := []
        skipped_reason := some "solve_failed"
        summary := "Could not solve polynomial analytically" }
    | some eigs =>
      let results := eigs.map (fun em =>
        { multiplicity := em.2
          category := (classify_eigenvalue em.1).1
          display := (classify_eigenvalue em.1).2
          is_nice := is_nice_closed_form (some em.1) : EigRecord })
      let all_nice := eigs.all (fun em => is_nice_closed_form (some em.1))
      { all_analytic := all_nice
        eigenvalues := results
        skipped_reason := none
        summary := if all_nice then "All eigenvalues have closed forms"
          else "Some eigenvalues lack closed forms (RootOf or Float)" }

/-! ### Enumeration driver (`find_analytic_graphs`, lines 423-540)

The driver is parametric in three oracles standing for the sympy calls:
`polyOf` is `compute_characteristic_polynomial` followed by `str` (it may
fail, and the source wraps it in no `try`), `factorsOf` is
`factor_list(...)[1]` reduced to degrees and multiplicities, and
`rootsOf` is `roots` with failures as `none`.  The deduplicated graph
stream produced by `enumerate_unique_graphs` is passed in as a list. -/

structure GraphData where
  edges : List (Nat × Nat)
  family_base : Option String
  family : Option String
deriving DecidableEq, Repr

/-- `family_base in KNOWN_ANALYTIC_FAMILIES` (`None` is never a member). -/
def isKnownFamily : Option String → Bool
  | some s => KNOWN_ANALYTIC_FAMILIES.contains s
  | none => false

abbrev Groups := List (String × List GraphData)

/-- `poly_groups[poly_str].append(graph_data)` on an insertion-ordered
dictionary, as Python's `defaultdict(list)`. -/
def addToGroup : Groups → String → GraphData → Groups
  | [], key, gd => [(key, [gd])]
  | (k, l) :: rest, key, gd =>
    if k == key then (k, l ++ [gd]) :: rest
    else (k, l) :: addToGroup rest key gd

structure Pass1Out where
  total : Nat
  skippedKnown : Nat
  groups : Groups
  knownResults : List GraphData
deriving DecidableEq, Repr

/-- Pass 1 (lines 449-474): per graph, identify the family; known
families are counted (and collected when `include_known`); all others
get their polynomial computed — with no exception handler, so a
`polyOf` failure aborts the whole run — and are grouped by its text. -/
def pass1 (n : Nat) (include_known : Bool)
    (polyOf : List (Nat × Nat) → Except Unit String) :
    List (List (Nat × Nat)) → Pass1Out → Except Unit Pass1Out
  | [], acc => .ok acc
  | es :: rest, acc =>
    let fam := identify_graph_family n es
    let gd : GraphData := ⟨es, fam.1, fam.2⟩
    if isKnownFamily fam.1 then
      pass1 n include_known polyOf rest
        { acc with
          total := acc.total + 1
          skippedKnown := acc.skippedKnown + 1
          knownResults :=
            if include_known then acc.knownResults ++ [gd] else acc.knownResults }
    else
      match polyOf es with
      | .error u => .error u
      | .ok p =>
        pass1 n include_known polyOf rest
          { acc with
            total := acc.total + 1
            groups := addToGroup acc.groups p gd }

/-- `edges_to_string` (lines 399-403); `sorted(edges)` sorts pairs
lexicographically. -/
def edge_pair_le (a b : Nat × Nat) : Prop :=
  a.1 < b.1 ∨ (a.1 = b.1 ∧ a.2 ≤ b.2)

instance : DecidableRel edge_pair_le := fun a b => by
  unfold edge_pair_le
  infer_instance

def edges_to_string (edges : List (Nat × Nat)) : String :=
  if edges.isEmpty then "∅ (no edges)"
  else String.intercalate ", "
    ((List.insertionSort edge_pair_le edges).map
      (fun e => toString e.1 ++ "-" ++ toString e.2))

/-- One output record (the dictionaries built at lines 497-507 and
517-528).  The plain-results path does not set `known_family`; that
absent key is model­led as `known_family := false`. -/
structure ResultRec where
  n : Nat
  edges : List (Nat × Nat)
  edge_string : String
  edge_count : Nat
  adjacency_matrix : List (List Int)
  polynomial : String
  eigenvalues : List EigRecord
  family : Option String
  known_family : Bool
  isomorphism_class_size : Nat
deriving DecidableEq, Repr

/-- Pass 2 (lines 485-508): analyze each polynomial group once; a group
with a `skipped_reason` adds its size to `graphs_skipped_poly`; an
`all_analytic` group yields one record from its first member (`graphs[0]`
— groups are never empty, `headD` only supplies the default).  A group
with neither (gate passed, roots found, some root not nice) produces
nothing and is counted nowhere. -/
def pass2 (n : Nat) (factorsOf : String → List Factor)
    (rootsOf : String → Option (List (SymExpr × Nat))) :
    Groups → Nat × List ResultRec
  | [] => (0, [])
  | (p, gs) :: rest =>
    let tailRes := pass2 n factorsOf rootsOf rest
    let analysis := analyze_eigenvalues (factorsOf p) (rootsOf p)
    if analysis.skipped_reason.isSome then
      (gs.length + tailRes.1, tailRes.2)
    else if analysis.all_analytic then
      let rep := gs.headD ⟨[], none, none⟩
      (tailRes.1,
        { n := n
          edges := rep.edges
          edge_string := edges_to_string rep.edges
          edge_count := rep.edges.length
          adjacency_matrix := make_skew_symmetric_matrix n rep.edges
          polynomial := p
          eigenvalues := analysis.eigenvalues
          family := rep.family
          known_family := false
          isomorphism_class_size := gs.length } :: tailRes.2)
    else
      tailRes

/-- Lines 511-529: each collected known-family graph gets its polynomial
computed (again without a handler: a failure aborts the run) and is
appended unconditionally with `known_family := true` and
`isomorphism_class_size := 1`. -/
def known_appendix (n : Nat)
    (polyOf : List (Nat × Nat) → Except Unit String)
    (factorsOf : String → List Factor)
    (rootsOf : String → Option (List (SymExpr × Nat))) :
    List GraphData → Except Unit (List ResultRec)
  | [] => .ok []
  | gd :: rest =>
    match polyOf gd.edges with
    | .error u => .error u
    | .ok p =>
      let analysis := analyze_eigenvalues (factorsOf p) (rootsOf p)
      match known_appendix n polyOf factorsOf rootsOf rest with
      | .error u => .error u
      | .ok tail =>
        .ok ({ n := n
               edges := gd.edges
               edge_string := edges_to_string gd.edges
               edge_count := gd.edges.length
               adjacency_matrix := make_skew_symmetric_matrix n gd.edges
               polynomial := p
               eigenvalues := analysis.eigenvalues
               family := gd.family
               known_family := true
               isomorphism_class_size := 1 : ResultRec } :: tail)

/-- The final sort key (line 538): ascending by
`(edge_count, polynomial)`, Python's lexicographic tuple order. -/
def result_le (a b : ResultRec) : Bool :=
  decide (a.edge_count < b.edge_count) ||
    (a.edge_count == b.edge_count && decide (a.polynomial ≤ b.polynomial))

def ResultLe (a b : ResultRec) : Prop := result_le a b = true

instance : DecidableRel ResultLe := fun a b => by
  unfold ResultLe
  infer_instance

instance : IsTrans ResultRec ResultLe := by
  refine ⟨fun a b c hab hbc => ?_⟩
  unfold ResultLe result_le at *
  simp only [Bool.or_eq_true, Bool.and_eq_true, decide_eq_true_eq,
    beq_iff_eq] at *
  rcases hab with h1 | ⟨h1, h1s⟩ <;> rcases hbc with h2 | ⟨h2, h2s⟩
  · left; omega
  · left; omega
  · left; omega
  · right; exact ⟨h1.trans h2, le_trans h1s h2s⟩

instance : IsTotal ResultRec ResultLe := by
  refine ⟨fun a b => ?_⟩
  unfold ResultLe result_le
  simp only [Bool.or_eq_true, Bool.and_eq_true, decide_eq_true_eq,
    beq_iff_eq]
  by_cases h : a.edge_count < b.edge_count
  · tauto
  · by_cases h2 : b.edge_count < a.edge_count
    · tauto
    · have he : a.edge_count = b.edge_count := by omega
      rcases le_total a.polynomial b.polynomial with hs | hs
      · exact Or.inl (Or.inr ⟨he, hs⟩)
      · exact Or.inr (Or.inr ⟨he.symm, hs⟩)

structure RunStats where
  total : Nat
  skippedKnown : Nat
  skippedPoly : Nat
deriving DecidableEq, Repr

/-- `find_analytic_graphs` (lines 423-540) over the deduplicated graph
stream `graphs` and the three sympy oracles. -/
def find_analytic_graphs (n : Nat) (include_known : Bool)
    (graphs : List (List (Nat × Nat)))
    (polyOf : List (Nat × Nat) → Except Unit String)
    (factorsOf : String → List Factor)
    (rootsOf : String → Option (List (SymExpr × Nat))) :
    Except Unit (List ResultRec × RunStats) :=
  match pass1 n include_known polyOf graphs ⟨0, 0, [], []⟩ with
  | .error u => .error u
  | .ok p1 =>
    if include_known then
      match known_appendix n polyOf factorsOf rootsOf p1.knownResults with
      | .error u => .error u
      | .ok ks =>
        .ok (List.insertionSort ResultLe
            ((pass2 n factorsOf rootsOf p1.groups).2 ++ ks),
          ⟨p1.total, p1.skippedKnown, (pass2 n factorsOf rootsOf p1.groups).1⟩)
    else
      .ok (List.insertionSort ResultLe (pass2 n factorsOf rootsOf p1.groups).2,
        ⟨p1.total, p1.skippedKnown, (pass2 n factorsOf rootsOf p1.groups).1⟩)

/-- `json_mode` (lines 583-586): the pipeline with
`include_known=True` hardwired. -/
def json_mode (n : Nat) (graphs : List (List (Nat × Nat)))
    (polyOf : List (Nat × Nat) → Except Unit String)
    (factorsOf : String → List Factor)
    (rootsOf : String → Option (List (SymExpr × Nat))) :
    Except Unit (List ResultRec × RunStats) :=
  find_analytic_graphs n true graphs polyOf factorsOf rootsOf

/-- The plain console branch of `main` (line 653):
`find_analytic_graphs(n, verbose=True)`, leaving `include_known` at its
default `False`. -/
def console_run (n : Nat) (graphs : List (List (Nat × Nat)))
    (polyOf : List (Nat × Nat) → Except Unit String)
    (factorsOf : String → List Factor)
    (rootsOf : String → Option (List (SymExpr × Nat))) :
    Except Unit (List ResultRec × RunStats) :=
  find_analytic_graphs n false graphs polyOf factorsOf rootsOf

end GraphEig

namespace UniVerify

/-! ### `verify_universe_positions.py`

A parsed CSV row, the expected-position formula (lines 70-80), and the
per-row check of `verify_positions` (lines 96-116).  The source computes
`dist = math.sqrt(dx*dx + dy*dy + dz*dz)` and branches on `dist < 0.1`;
the executable embedding compares the squared distance with `0.1²`
(`row_is_correct`), and the bridge to the real square root is proved in
the theorem for the claim.  Arithmetic is exact (ℚ) where the source
uses binary floating point. -/

structure Row where
  name : String
  family : String
  n : Int
  edges : Int
  spectralRadius : ℚ
  energy : ℚ
  x : ℚ
  y : ℚ
  z : ℚ
deriving DecidableEq, Repr

def N_SCALE : ℚ := 8
def RHO_SCALE : ℚ := 15
def ENERGY_SCALE : ℚ := 8
def ENERGY_CENTER : ℚ := 8

/-- `compute_expected_position` (lines 70-80):
`(n*8, ρ*15, (E-8)*8)`. -/
def compute_expected_position (g : Row) : ℚ × ℚ × ℚ :=
  ((g.n : ℚ) * N_SCALE, g.spectralRadius * RHO_SCALE,
    (g.energy - ENERGY_CENTER) * ENERGY_SCALE)

/-- `dx*dx + dy*dy + dz*dz` with `dx = abs(x - exp_x)` etc.
(lines 99-102). -/
def row_dist_sq (g : Row) : ℚ :=
  let e := compute_expected_position g
  let dx := |g.x - e.1|
  let dy := |g.y - e.2.1|
  let dz := |g.z - e.2.2|
  dx * dx + dy * dy + dz * dz

/-- The branch `if dist < 0.1` (line 104), squared. -/
def row_is_correct (g : Row) : Bool :=
  row_dist_sq g < 1 / 100

/-- `verify_positions` (lines 82-139) reduced to its accounting: every
row either increments `perfect` or is appended to `discrepancies`. -/
def verify_positions (graphs : List Row) : Nat × List Row :=
  graphs.foldl (fun acc g =>
    if row_is_correct g then (acc.1 + 1, acc.2)
    else (acc.1, acc.2 ++ [g])) (0, [])

end UniVerify

namespace GraphEig

/-- The zero root as sympy's `roots` delivers it: the exact integer `0`,
which carries no `Float` and no `RootOf`. -/
def zeroRoot : SymExpr := ⟨false, false, false, 0, 0⟩

/-- Sum over the results of the isomorphism-class sizes of the records
that are not known-family ones: the number of deduplicated graphs the
"accepted" bucket accounts for. -/
def acceptedSize (results : List ResultRec) : Nat :=
  ((results.filter (fun r => !r.known_family)).map
    (fun r => r.isomorphism_class_size)).sum

/-- Number of deduplicated graphs in a grouping. -/
def groupsSum (groups : Groups) : Nat :=
  (groups.map (fun g => g.2.length)).sum

/-- A polynomial group whose analysis passes the gate and solves but is
not all-analytic: pass 2 neither reports nor counts it. -/
def isDroppedGroup (factorsOf : String → List Factor)
    (rootsOf : String → Option (List (SymExpr × Nat))) (p : String) : Bool :=
  let a := analyze_eigenvalues (factorsOf p) (rootsOf p)
  !a.skipped_reason.isSome && !a.all_analytic

/-- Number of deduplicated graphs of a run that end up in no statistics
bucket at all. -/
def run_dropped (n : Nat) (include_known : Bool)
    (graphs : List (List (Nat × Nat)))
    (polyOf : List (Nat × Nat) → Except Unit String)
    (factorsOf : String → List Factor)
    (rootsOf : String → Option (List (SymExpr × Nat))) : Nat :=
  match pass1 n include_known polyOf graphs ⟨0, 0, [], []⟩ with
  | .error _ => 0
  | .ok p1 =>
    ((p1.groups.filter (fun g => isDroppedGroup factorsOf rootsOf g.1)).map
      (fun g => g.2.length)).sum

/-- The ordered guard/result list of §4.3 of the spec: empty, complete,
then — only on connected graphs — cycle, path, star, wheel, ladder, then
regular, then tree. -/
def familyChecks (n : Nat) (edges : List (Nat × Nat)) :
    List (Bool × (Option String × Option String)) :=
  let m := edges.length
  let conn := is_connected n edges
  let degrees := degreesOf n edges
  [(m == 0,
      (some "Empty graph", some ("Empty graph E_" ++ toString n))),
   (m == n * (n - 1) / 2,
      (some "Complete graph", some ("Complete graph K_" ++ toString n))),
   (conn && (m == n) && degrees.all (fun d => d == 2),
      (some "Cycle graph", some ("Cycle graph C_" ++ toString n))),
   (conn && (m == n - 1) &&
        (degrees == sortDesc ([1, 1] ++ List.replicate (n - 2) 2)),
      (some "Path graph", some ("Path graph P_" ++ toString n))),
   (conn && (m == n - 1) &&
        (degrees == sortDesc ([n - 1] ++ List.replicate (n - 1) 1)),
      (some "Star graph", some ("Star graph S_" ++ toString n))),
   (conn && (m == 2 * (n - 1)) && (degrees.headD 0 == n - 1) &&
        degrees.tail.all (fun d => d == 3),
      (some "Wheel graph", some ("Wheel graph W_" ++ toString n))),
   (conn && (n % 2 == 0) && (m == 3 * (n / 2) - 2) &&
        degrees.all (fun d => d == 2 || d == 3),
      (some "Ladder graph", some ("Ladder graph L_" ++ toString (n / 2)))),
   ((degrees.dedup.length == 1) && (0 < degrees.headD 0),
      (none, some (toString (degrees.headD 0) ++ "-regular graph on " ++
        toString n ++ " vertices"))),
   (conn && (m == n - 1),
      (some "Tree", some ("Tree on " ++ toString n ++ " vertices")))]

/-- First guard that holds wins; no guard gives `(null, null)`. -/
def firstMatch : List (Bool × (Option String × Option String)) →
    Option String × Option String
  | [] => (none, none)
  | (b, r) :: rest => if b then r else firstMatch rest

end GraphEig

namespace GraphEig

/-! ## Theorems -/

/-- C3: `check_degree_cutoff` with the default threshold 4 returns skip
(`true`) iff some irreducible factor has degree strictly above 4;
whenever every factor has degree at most 4 it proceeds (`false`), and at
the boundary a degree-4 factor proceeds while a degree-5 factor skips. -/
theorem check_degree_cutoff_spec (factors : List Factor) :
    (check_degree_cutoff factors = true ↔ ∃ f ∈ factors, 4 < f.deg) ∧
    ((∀ f ∈ factors, f.deg ≤ 4) → check_degree_cutoff factors = false) ∧
    check_degree_cutoff [⟨4, 1⟩] = false ∧
    check_degree_cutoff [⟨5, 1⟩] = true := by
  refine ⟨?_, ?_, by decide, by decide⟩
  · simp [check_degree_cutoff, List.any_eq_true, MAX_ANALYTIC_DEGREE]
  · intro h
    simp only [check_degree_cutoff, List.any_eq_false, MAX_ANALYTIC_DEGREE]
    intro f hf
    simpa using Nat.not_lt.mpr (h f hf)

/-- Witness for C3: a factor list with degrees 3 and 4 proceeds. -/
theorem check_degree_cutoff_spec_witness :
    check_degree_cutoff [⟨3, 1⟩, ⟨4, 2⟩] = false :=
  (check_degree_cutoff_spec [⟨3, 1⟩, ⟨4, 2⟩]).2.1 (by decide)

/-- C2 counterexample: on the real nonzero value `1` (whose quotient by
`I` is not real) `classify_eigenvalue` returns the tag `'complex/error'`,
which is not in the set `{zero, pure_imaginary, real, complex, unknown}`
the claim allows. -/
theorem classify_eigenvalue_tag_counterexample :
    (classify_eigenvalue ⟨false, false, false, 1, 0⟩).1 = "complex/error" ∧
    (classify_eigenvalue ⟨false, false, false, 1, 0⟩).1 ∉
      (["zero", "pure_imaginary", "real", "complex", "unknown"] : List String) := by
  decide

/-- C2 (amended): every tag `classify_eigenvalue` returns is drawn from
`{zero, pure_imaginary, complex/error}` (together with the `unknown` tag
of the unreachable exception handler); the tag is `zero` exactly on the
value 0, `pure_imaginary` with display `±|coefficient|i` when the value
is nonzero and its quotient by `I` is real, and `complex/error` — not
`complex` — when that quotient is not real. -/
theorem classify_eigenvalue_spec (e : SymExpr) :
    ((classify_eigenvalue e).1 = "zero" ∨
      (classify_eigenvalue e).1 = "pure_imaginary" ∨
      (classify_eigenvalue e).1 = "complex/error") ∧
    (e.re = 0 ∧ e.im = 0 → classify_eigenvalue e = ("zero", Display.zeroD)) ∧
    (¬(e.re = 0 ∧ e.im = 0) → e.re = 0 →
      classify_eigenvalue e = ("pure_imaginary", Display.pmI |e.im|)) ∧
    (e.re ≠ 0 → (classify_eigenvalue e).1 = "complex/error") := by
  unfold classify_eigenvalue divI isRealPair
  by_cases h1 : e.re = 0
  · by_cases h2 : e.im = 0
    · simp [h1, h2]
    · simp [h1, h2]
  · simp [h1]

/-- Witness for C2: the value `0` is tagged `zero`. -/
theorem classify_eigenvalue_spec_witness :
    classify_eigenvalue ⟨false, false, false, 0, 0⟩ = ("zero", Display.zeroD) :=
  (classify_eigenvalue_spec ⟨false, false, false, 0, 0⟩).2.1 ⟨rfl, rfl⟩

/-- C4: on a polynomial that passes the gate and whose roots are found,
`analyze_eigenvalues` sets `all_analytic` exactly when every root passes
`is_nice_closed_form`; one failing root rejects the whole polynomial,
and the zero root is always nice. -/
theorem analyze_eigenvalues_all_analytic (factors : List Factor)
    (eigs : List (SymExpr × Nat))
    (hgate : check_degree_cutoff factors = false) :
    ((analyze_eigenvalues factors (some eigs)).all_analytic = true ↔
      ∀ em ∈ eigs, is_nice_closed_form (some em.1) = true) ∧
    ((∃ em ∈ eigs, is_nice_closed_form (some em.1) = false) →
      (analyze_eigenvalues factors (some eigs)).all_analytic = false) ∧
    is_nice_closed_form (some zeroRoot) = true := by
  have key : (analyze_eigenvalues factors (some eigs)).all_analytic = true ↔
      ∀ em ∈ eigs, is_nice_closed_form (some em.1) = true := by
    simp [analyze_eigenvalues, hgate, find_eigenvalues, List.all_eq_true]
  refine ⟨key, ?_, by decide⟩
  rintro ⟨em, hm, hbad⟩
  cases h : (analyze_eigenvalues factors (some eigs)).all_analytic
  · rfl
  · exact absurd (key.mp h em hm) (by simp [hbad])

/-- Witness for C4: a quadratic factor passes the gate, and a spectrum
consisting of the zero root is all analytic. -/
theorem analyze_eigenvalues_all_analytic_witness :
    (analyze_eigenvalues [⟨2, 1⟩] (some [(zeroRoot, 3)])).all_analytic = true :=
  ((analyze_eigenvalues_all_analytic [⟨2, 1⟩] [(zeroRoot, 3)] (by decide)).1).mpr
    (by decide)

lemma combos_length (l : List α) (r : Nat) :
    (combos l r).length = l.length.choose r := by
  induction l generalizing r with
  | nil => cases r <;> simp [combos]
  | cons a l ih =>
    cases r with
    | zero => simp [combos]
    | succ r =>
      simp [combos, ih, Nat.choose_succ_succ, Nat.add_comm]

lemma mem_combos_sublist {l : List α} {r : Nat} {c : List α}
    (h : c ∈ combos l r) : c.Sublist l := by
  induction l generalizing r c with
  | nil =>
    cases r with
    | zero => simp [combos] at h; simp [h]
    | succ r => simp [combos] at h
  | cons a l ih =>
    cases r with
    | zero => simp [combos] at h; simp [h]
    | succ r =>
      simp only [combos, List.mem_append, List.mem_map] at h
      rcases h with ⟨c0, hc0, rfl⟩ | h
      · exact (ih hc0).cons_cons a
      · exact (ih h).cons a

lemma mem_combos_length {l : List α} {r : Nat} {c : List α}
    (h : c ∈ combos l r) : c.length = r := by
  induction l generalizing r c with
  | nil =>
    cases r with
    | zero => simp [combos] at h; simp [h]
    | succ r => simp [combos] at h
  | cons a l ih =>
    cases r with
    | zero => simp [combos] at h; simp [h]
    | succ r =>
      simp only [combos, List.mem_append, List.mem_map] at h
      rcases h with ⟨c0, hc0, rfl⟩ | h
      · simp [ih hc0]
      · exact ih h

lemma combos_nodup {l : List α} (hl : l.Nodup) (r : Nat) :
    (combos l r).Nodup := by
  induction l generalizing r with
  | nil => cases r <;> simp [combos]
  | cons a l ih =>
    rw [List.nodup_cons] at hl
    cases r with
    | zero => simp [combos]
    | succ r =>
      simp only [combos]
      refine List.Nodup.append ((ih hl.2 r).map List.cons_injective) (ih hl.2 (r + 1)) ?_
      intro c hc1 hc2
      simp only [List.mem_map] at hc1
      rcases hc1 with ⟨c0, _, rfl⟩
      exact hl.1 ((mem_combos_sublist hc2).subset (by simp))

lemma range_map_sum (f : Nat → Nat) (n : Nat) :
    ((List.range n).map f).sum = ∑ i ∈ Finset.range n, f i := by
  induction n with
  | zero => simp
  | succ n ih =>
    rw [List.range_succ, List.map_append, List.sum_append, Finset.sum_range_succ, ih]
    simp

lemma possible_edges_length (n : Nat) :
    (possible_edges n).length = n * (n - 1) / 2 := by
  rw [possible_edges, List.length_flatMap]
  simp only [Function.comp_def, List.length_map, List.length_range']
  rw [range_map_sum]
  have h1 : ∀ i, n - (i + 1) = n - 1 - i := by intro i; omega
  calc ∑ i ∈ Finset.range n, (n - (i + 1))
      = ∑ i ∈ Finset.range n, (n - 1 - i) := by
        exact Finset.sum_congr rfl (fun i _ => h1 i)
    _ = ∑ i ∈ Finset.range n, i := Finset.sum_range_reflect (fun i => i) n
    _ = n * (n - 1) / 2 := Finset.sum_range_id n

lemma mem_possible_edges {n : Nat} {e : Nat × Nat} :
    e ∈ possible_edges n ↔ e.1 < e.2 ∧ e.2 < n := by
  obtain ⟨i, j⟩ := e
  simp only [possible_edges, List.mem_flatMap, List.mem_map, List.mem_range,
    List.mem_range', Prod.mk.injEq]
  constructor
  · rintro ⟨a, ha, jj, ⟨k, hk, rfl⟩, rfl, rfl⟩
    omega
  · rintro ⟨hij, hjn⟩
    exact ⟨i, by omega, j, ⟨j - (i + 1), by omega, by omega⟩, rfl, rfl⟩

lemma possible_edges_nodup (n : Nat) : (possible_edges n).Nodup := by
  rw [possible_edges, List.nodup_flatMap]
  constructor
  · intro i _
    exact (List.nodup_range' _ _).map (fun x y hxy => by
      simpa using congrArg Prod.snd hxy)
  · refine (List.pairwise_lt_range n).imp ?_
    intro a b hab c hc1 hc2
    simp only [List.mem_map] at hc1 hc2
    rcases hc1 with ⟨j1, _, rfl⟩
    rcases hc2 with ⟨j2, _, h⟩
    have := congrArg Prod.fst h
    simp at this
    omega

lemma generate_all_edge_sets_length (n : Nat) :
    (generate_all_edge_sets n).length = 2 ^ (n * (n - 1) / 2) := by
  rw [generate_all_edge_sets, List.length_flatMap]
  simp only [Function.comp_def]
  have hmap : (List.map (fun r => (combos (possible_edges n) r).length)
      (List.range ((possible_edges n).length + 1))).sum = 2 ^ (possible_edges n).length := by
    rw [range_map_sum]
    calc ∑ r ∈ Finset.range ((possible_edges n).length + 1),
          (combos (possible_edges n) r).length
        = ∑ r ∈ Finset.range ((possible_edges n).length + 1),
            (possible_edges n).length.choose r :=
          Finset.sum_congr rfl (fun r _ => combos_length _ r)
      _ = 2 ^ (possible_edges n).length := Nat.sum_range_choose _
  rw [hmap, possible_edges_length]

lemma generate_all_edge_sets_nodup (n : Nat) :
    (generate_all_edge_sets n).Nodup := by
  rw [generate_all_edge_sets, List.nodup_flatMap]
  constructor
  · intro r _
    exact combos_nodup (possible_edges_nodup n) r
  · refine (List.pairwise_lt_range _).imp ?_
    intro r s hrs c hc1 hc2
    have h1 := mem_combos_length hc1
    have h2 := mem_combos_length hc2
    omega

/-- C7: `generate_all_edge_sets` yields exactly `2^(n(n-1)/2)` edge
sets, pairwise distinct, and each yielded set has no duplicate edges and
only edges `(i, j)` with `i < j < n` (hence no self-loops). -/
theorem generate_all_edge_sets_spec (n : Nat) :
    (generate_all_edge_sets n).length = 2 ^ (n * (n - 1) / 2) ∧
    (generate_all_edge_sets n).Nodup ∧
    ∀ s ∈ generate_all_edge_sets n, s.Nodup ∧ ∀ e ∈ s, e.1 < e.2 ∧ e.2 < n := by
  refine ⟨generate_all_edge_sets_length n, generate_all_edge_sets_nodup n, ?_⟩
  intro s hs
  rw [generate_all_edge_sets, List.mem_flatMap] at hs
  rcases hs with ⟨r, _, hs⟩
  have hsub := mem_combos_sublist hs
  exact ⟨hsub.nodup (possible_edges_nodup n),
    fun e he => mem_possible_edges.mp (hsub.subset he)⟩

/-- Witness for C7: the edge set `[(0, 1)]` yielded for `n = 2` is
duplicate-free and its single edge is within bounds. -/
theorem generate_all_edge_sets_spec_witness :
    ([((0 : Nat), (1 : Nat))].Nodup ∧
      ∀ e ∈ [((0 : Nat), (1 : Nat))], e.1 < e.2 ∧ e.2 < 2) :=
  (generate_all_edge_sets_spec 2).2.2 [(0, 1)] (by decide)

lemma sum_deg (n : Nat) (es : List (Nat × Nat))
    (hwf : ∀ e ∈ es, e.1 < e.2 ∧ e.2 < n) :
    ∑ v ∈ Finset.range n, deg_in es v = 2 * es.length := by
  induction es with
  | nil => simp [deg_in]
  | cons e es ih =>
    have he := hwf e (by simp)
    have hrest : ∀ x ∈ es, x.1 < x.2 ∧ x.2 < n := fun x hx => hwf x (by simp [hx])
    have hsplit : ∀ v, deg_in (e :: es) v =
        (if e.1 = v ∨ e.2 = v then 1 else 0) + deg_in es v := by
      intro v
      simp only [deg_in, List.filter_cons]
      by_cases h : e.1 = v ∨ e.2 = v
      · have hb : (e.1 == v || e.2 == v) = true := by
          rcases h with h | h <;> simp [h]
        simp [hb, h, Nat.add_comm]
      · have hb : (e.1 == v || e.2 == v) = false := by
          simp only [Bool.or_eq_false_iff, beq_eq_false_iff_ne]
          exact ⟨fun h1 => h (Or.inl h1), fun h2 => h (Or.inr h2)⟩
        simp [hb, h]
    rw [Finset.sum_congr rfl (fun v _ => hsplit v), Finset.sum_add_distrib, ih hrest]
    have hset : (Finset.range n).filter (fun v => e.1 = v ∨ e.2 = v) =
        ({e.1, e.2} : Finset ℕ) := by
      ext v
      simp only [Finset.mem_filter, Finset.mem_range, Finset.mem_insert,
        Finset.mem_singleton]
      constructor
      · rintro ⟨_, h | h⟩
        · exact Or.inl h.symm
        · exact Or.inr h.symm
      · rintro (rfl | rfl)
        · exact ⟨by omega, Or.inl rfl⟩
        · exact ⟨by omega, Or.inr rfl⟩
    have hind : ∑ v ∈ Finset.range n, (if e.1 = v ∨ e.2 = v then (1 : ℕ) else 0) = 2 := by
      rw [show (∑ v ∈ Finset.range n, (if e.1 = v ∨ e.2 = v then (1 : ℕ) else 0)) =
          ((Finset.range n).filter (fun v => e.1 = v ∨ e.2 = v)).card from
        (Finset.card_filter _ _).symm, hset]
      exact Finset.card_pair (by omega)
    rw [hind]
    simp only [List.length_cons]
    ring

lemma firstMatch_all_false (cs : List (Bool × (Option String × Option String)))
    (h : ∀ c ∈ cs, c.1 = false) : firstMatch cs = (none, none) := by
  induction cs with
  | nil => rfl
  | cons c rest ih =>
    rw [firstMatch, h c (by simp), if_neg (by simp)]
    exact ih (fun x hx => h x (by simp [hx]))

/-- C6: `identify_graph_family` tests the family predicates in the fixed
order empty, complete, then (only on connected graphs) cycle, path,
star, wheel, ladder, then regular, then tree, returning the first match;
a graph matching no predicate yields `(null, null)`; and a connected
graph whose vertices all have degree 2 that is not complete is reported
as a cycle graph (not as regular). -/
theorem identify_graph_family_spec (n : Nat) (edges : List (Nat × Nat)) :
    identify_graph_family n edges = firstMatch (familyChecks n edges) ∧
    ((∀ c ∈ familyChecks n edges, c.1 = false) →
      identify_graph_family n edges = (none, none)) ∧
    ((∀ e ∈ edges, e.1 < e.2 ∧ e.2 < n) →
      is_connected n edges = true →
      (∀ v < n, deg_in edges v = 2) →
      edges.length ≠ n * (n - 1) / 2 →
      identify_graph_family n edges =
        (some "Cycle graph", some ("Cycle graph C_" ++ toString n))) := by
  have hfm : identify_graph_family n edges = firstMatch (familyChecks n edges) := rfl
  refine ⟨hfm, fun h => hfm.trans (firstMatch_all_false _ h), ?_⟩
  intro hwf hconn hreg hnc
  have hn : 0 < n := by
    by_contra hn0
    have h0 : n = 0 := by omega
    rw [is_connected, h0] at hconn
    simp at hconn
  have hmn : edges.length = n := by
    have h2 := sum_deg n edges hwf
    have h3 : ∑ v ∈ Finset.range n, deg_in edges v = 2 * n := by
      rw [Finset.sum_congr rfl (fun v hv => hreg v (Finset.mem_range.mp hv))]
      simp [Finset.sum_const, Nat.mul_comm]
    omega
  have hall : (degreesOf n edges).all (fun d => d == 2) = true := by
    rw [List.all_eq_true]
    intro d hd
    rw [degreesOf, sortDesc] at hd
    rw [(List.perm_insertionSort _ _).mem_iff, List.mem_map] at hd
    rcases hd with ⟨v, hv, rfl⟩
    simp [hreg v (List.mem_range.mp hv)]
  have g1 : (edges.length == 0) = false := by
    simp only [beq_eq_false_iff_ne]
    omega
  have g2 : (edges.length == n * (n - 1) / 2) = false := by
    simp only [beq_eq_false_iff_ne]
    exact hnc
  have g3 : (edges.length == n) = true := by simp [hmn]
  rw [identify_graph_family]
  simp only [g1, g2, g3, hconn, hall, Bool.and_true, Bool.true_and,
    Bool.false_eq_true, if_false, if_true]

/-- Witness for C6: the 4-cycle is identified as `Cycle graph C_4`. -/
theorem identify_graph_family_spec_witness :
    identify_graph_family 4 [(0, 1), (1, 2), (2, 3), (0, 3)] =
      (some "Cycle graph", some ("Cycle graph C_" ++ toString 4)) :=
  (identify_graph_family_spec 4 [(0, 1), (1, 2), (2, 3), (0, 3)]).2.2
    (by decide) (by decide) (by decide) (by decide)

lemma groupsSum_cons (k : String) (l : List GraphData) (rest : Groups) :
    groupsSum ((k, l) :: rest) = l.length + groupsSum rest := by
  simp [groupsSum]

lemma groupsSum_nil : groupsSum [] = 0 := rfl

lemma addToGroup_sum (groups : Groups) (p : String) (gd : GraphData) :
    groupsSum (addToGroup groups p gd) = groupsSum groups + 1 := by
  induction groups with
  | nil => simp [addToGroup, groupsSum]
  | cons g rest ih =>
    obtain ⟨k, l⟩ := g
    rw [addToGroup]
    by_cases h : (k == p) = true
    · rw [if_pos h, groupsSum_cons, groupsSum_cons]
      simp
      omega
    · rw [if_neg (by simp [h]), groupsSum_cons, groupsSum_cons, ih]
      omega

lemma pass1_accounting (n : Nat) (ik : Bool)
    (polyOf : List (Nat × Nat) → Except Unit String)
    (gs : List (List (Nat × Nat))) :
    ∀ (acc out : Pass1Out), pass1 n ik polyOf gs acc = .ok out →
    out.total + acc.skippedKnown + groupsSum acc.groups =
      acc.total + out.skippedKnown + groupsSum out.groups ∧
    out.total = acc.total + gs.length := by
  induction gs with
  | nil =>
    intro acc out h
    rw [pass1] at h
    cases h
    simp
  | cons es rest ih =>
    intro acc out h
    rw [pass1] at h
    by_cases hk : isKnownFamily (identify_graph_family n es).1 = true
    · rw [if_pos hk] at h
      have hrec := ih _ _ h
      simp only at hrec
      simp only [List.length_cons]
      omega
    · rw [if_neg hk] at h
      cases hp : polyOf es with
      | error u => rw [hp] at h; cases h
      | ok p =>
        rw [hp] at h
        have hrec := ih _ _ h
        simp only [addToGroup_sum] at hrec
        simp only [List.length_cons]
        omega

lemma acceptedSize_cons (r : ResultRec) (l : List ResultRec) :
    acceptedSize (r :: l) =
      (if r.known_family then 0 else r.isomorphism_class_size) + acceptedSize l := by
  by_cases h : r.known_family
  · simp [acceptedSize, List.filter_cons, h]
  · simp [acceptedSize, List.filter_cons, h]

lemma pass2_accounting (n : Nat) (fo : String → List Factor)
    (ro : String → Option (List (SymExpr × Nat))) (groups : Groups) :
    (pass2 n fo ro groups).1 + acceptedSize (pass2 n fo ro groups).2 +
      ((groups.filter (fun g => isDroppedGroup fo ro g.1)).map
        (fun g => g.2.length)).sum = groupsSum groups := by
  induction groups with
  | nil => simp [pass2, acceptedSize, groupsSum]
  | cons g rest ih =>
    obtain ⟨p, gs⟩ := g
    rw [pass2]
    by_cases h1 : (analyze_eigenvalues (fo p) (ro p)).skipped_reason.isSome = true
    · have hd : isDroppedGroup fo ro p = false := by
        simp [isDroppedGroup, h1]
      rw [if_pos h1]
      simp only [List.filter_cons, hd, Bool.false_eq_true, if_false,
        groupsSum_cons]
      omega
    · rw [if_neg h1]
      by_cases h2 : (analyze_eigenvalues (fo p) (ro p)).all_analytic = true
      · have hd : isDroppedGroup fo ro p = false := by
          simp [isDroppedGroup, h1, h2]
        rw [if_pos h2]
        simp only [List.filter_cons, hd, Bool.false_eq_true, if_false,
          groupsSum_cons, acceptedSize_cons]
        omega
      · have hd : isDroppedGroup fo ro p = true := by
          simp only [isDroppedGroup, Bool.and_eq_true, Bool.not_eq_true']
          exact ⟨by simp [h1], by simpa using h2⟩
        rw [if_neg h2]
        simp only [List.filter_cons, hd, if_true, List.map_cons, List.sum_cons,
          groupsSum_cons]
        omega

lemma pass2_not_known (n : Nat) (fo : String → List Factor)
    (ro : String → Option (List (SymExpr × Nat))) (groups : Groups) :
    ∀ r ∈ (pass2 n fo ro groups).2, r.known_family = false := by
  induction groups with
  | nil => simp [pass2]
  | cons g rest ih =>
    obtain ⟨p, gs⟩ := g
    rw [pass2]
    by_cases h1 : (analyze_eigenvalues (fo p) (ro p)).skipped_reason.isSome = true
    · rw [if_pos h1]; exact ih
    · rw [if_neg h1]
      by_cases h2 : (analyze_eigenvalues (fo p) (ro p)).all_analytic = true
      · rw [if_pos h2]
        intro r hr
        rcases List.mem_cons.mp hr with rfl | hr
        · rfl
        · exact ih r hr
      · rw [if_neg h2]; exact ih

lemma known_appendix_props (n : Nat)
    (polyOf : List (Nat × Nat) → Except Unit String)
    (fo : String → List Factor)
    (ro : String → Option (List (SymExpr × Nat))) (gds : List GraphData) :
    ∀ ks, known_appendix n polyOf fo ro gds = .ok ks →
    ∀ r ∈ ks, r.known_family = true ∧ r.isomorphism_class_size = 1 := by
  induction gds with
  | nil =>
    intro ks h
    rw [known_appendix] at h
    cases h
    simp
  | cons gd rest ih =>
    intro ks h
    rw [known_appendix] at h
    cases hp : polyOf gd.edges with
    | error u => rw [hp] at h; cases h
    | ok p =>
      rw [hp] at h
      cases ha : known_appendix n polyOf fo ro rest with
      | error u => rw [ha] at h; cases h
      | ok tail =>
        rw [ha] at h
        cases h
        intro r hr
        rcases List.mem_cons.mp hr with rfl | hr
        · exact ⟨rfl, rfl⟩
        · exact ih tail ha r hr

lemma known_appendix_ok (n : Nat)
    (polyOf : List (Nat × Nat) → Except Unit String)
    (fo : String → List Factor)
    (ro : String → Option (List (SymExpr × Nat))) (gds : List GraphData)
    (h : ∀ gd ∈ gds, (polyOf gd.edges).isOk = true) :
    ∃ ks, known_appendix n polyOf fo ro gds = .ok ks := by
  induction gds with
  | nil => exact ⟨[], rfl⟩
  | cons gd rest ih =>
    have h1 := h gd (by simp)
    rcases ih (fun x hx => h x (by simp [hx])) with ⟨tail, htail⟩
    cases hp : polyOf gd.edges with
    | error u => rw [hp] at h1; cases h1
    | ok p =>
      refine ⟨{ n := n
                edges := gd.edges
                edge_string := edges_to_string gd.edges
                edge_count := gd.edges.length
                adjacency_matrix := make_skew_symmetric_matrix n gd.edges
                polynomial := p
                eigenvalues := (analyze_eigenvalues (fo p) (ro p)).eigenvalues
                family := gd.family
                known_family := true
                isomorphism_class_size := 1 : ResultRec } :: tail, ?_⟩
      rw [known_appendix, hp, htail]

lemma pass1_ok (n : Nat) (ik : Bool)
    (polyOf : List (Nat × Nat) → Except Unit String)
    (gs : List (List (Nat × Nat))) :
    ∀ acc : Pass1Out, (∀ es ∈ gs, (polyOf es).isOk = true) →
    ∃ out, pass1 n ik polyOf gs acc = .ok out ∧
      ∀ gd ∈ out.knownResults, gd ∈ acc.knownResults ∨ gd.edges ∈ gs := by
  induction gs with
  | nil =>
    intro acc _
    exact ⟨acc, rfl, fun gd hgd => Or.inl hgd⟩
  | cons es rest ih =>
    intro acc h
    have hrest : ∀ x ∈ rest, (polyOf x).isOk = true := fun x hx => h x (by simp [hx])
    by_cases hk : isKnownFamily (identify_graph_family n es).1 = true
    · rcases ih { acc with
          total := acc.total + 1
          skippedKnown := acc.skippedKnown + 1
          knownResults := if ik then acc.knownResults ++
            [⟨es, (identify_graph_family n es).1, (identify_graph_family n es).2⟩]
            else acc.knownResults } hrest with ⟨out, hout, hmem⟩
      refine ⟨out, ?_, ?_⟩
      · rw [pass1, if_pos hk]
        exact hout
      · intro gd hgd
        rcases hmem gd hgd with hin | hin
        · by_cases hik : ik = true
          · rw [hik] at hin
            simp only [if_true] at hin
            rcases List.mem_append.mp hin with hin | hin
            · exact Or.inl hin
            · right
              simp only [List.mem_singleton] at hin
              subst hin
              simp
          · rw [Bool.not_eq_true] at hik
            rw [hik] at hin
            simp only [Bool.false_eq_true, if_false] at hin
            exact Or.inl hin
        · exact Or.inr (by simp [hin])
    · have h1 := h es (by simp)
      cases hp : polyOf es with
      | error u => rw [hp] at h1; cases h1
      | ok p =>
        rcases ih { acc with
            total := acc.total + 1
            groups := addToGroup acc.groups p
              ⟨es, (identify_graph_family n es).1, (identify_graph_family n es).2⟩ }
            hrest with ⟨out, hout, hmem⟩
        refine ⟨out, ?_, ?_⟩
        · rw [pass1, if_neg hk, hp]
          exact hout
        · intro gd hgd
          rcases hmem gd hgd with hin | hin
          · exact Or.inl hin
          · exact Or.inr (by simp [hin])

lemma acceptedSize_append (l1 l2 : List ResultRec) :
    acceptedSize (l1 ++ l2) = acceptedSize l1 + acceptedSize l2 := by
  simp [acceptedSize, List.filter_append]

lemma acceptedSize_perm {l1 l2 : List ResultRec} (h : l1.Perm l2) :
    acceptedSize l1 = acceptedSize l2 :=
  ((h.filter _).map _).sum_eq

lemma acceptedSize_known_zero (l : List ResultRec)
    (h : ∀ r ∈ l, r.known_family = true) : acceptedSize l = 0 := by
  induction l with
  | nil => simp [acceptedSize]
  | cons r rest ih =>
    rw [acceptedSize_cons, h r (by simp), if_pos rfl,
      ih (fun x hx => h x (by simp [hx]))]

/-- C1 counterexample: a one-graph run (triangle plus an isolated vertex
on 4 vertices, not a known family) whose polynomial passes the gate and
solves but whose root carries a `Float`.  The run succeeds with
`graphs_total = 1` while the buckets known-family, degree/solve-skipped
and accepted are all empty: the graph is in no bucket and the bucket
sizes do not sum to the total. -/
theorem find_analytic_graphs_bucket_counterexample :
    find_analytic_graphs 4 false [[(0, 1), (0, 2), (1, 2)]]
      (fun _ => Except.ok "p") (fun _ => [])
      (fun _ => some [(⟨true, false, false, 0, 0⟩, 1)]) =
      Except.ok ([], ⟨1, 0, 0⟩) ∧
    ¬ ((0 : Nat) + 0 + acceptedSize ([] : List ResultRec) = 1) := by
  exact ⟨rfl, by simp [acceptedSize]⟩

/-- C1 (amended): in every completed run, the known-family counter, the
single merged skipped counter (degree cutoff and solve failure share
`graphs_skipped_poly`), the accepted graphs (each accepted record
accounting for `isomorphism_class_size` deduplicated graphs), and the
silently dropped graphs (groups that passed the gate and solved but had
a non-nice root, which appear in no statistic) together account for
exactly the total; the total is the number of deduplicated graphs that
entered the pipeline.  Without the dropped summand the claimed
three-way/four-way bucket partition fails. -/
theorem find_analytic_graphs_accounting (n : Nat) (ik : Bool)
    (graphs : List (List (Nat × Nat)))
    (polyOf : List (Nat × Nat) → Except Unit String)
    (fo : String → List Factor)
    (ro : String → Option (List (SymExpr × Nat)))
    (results : List ResultRec) (stats : RunStats)
    (h : find_analytic_graphs n ik graphs polyOf fo ro = .ok (results, stats)) :
    stats.skippedKnown + stats.skippedPoly + acceptedSize results +
      run_dropped n ik graphs polyOf fo ro = stats.total ∧
    stats.total = graphs.length := by
  rw [find_analytic_graphs] at h
  cases hp : pass1 n ik polyOf graphs ⟨0, 0, [], []⟩ with
  | error u => rw [hp] at h; cases h
  | ok p1 =>
    rw [hp] at h
    simp only [] at h
    have hacc := pass1_accounting n ik polyOf graphs _ _ hp
    simp only [groupsSum_nil, Nat.add_zero, Nat.zero_add] at hacc
    have hps := pass2_accounting n fo ro p1.groups
    have hdrop : run_dropped n ik graphs polyOf fo ro =
        ((p1.groups.filter (fun g => isDroppedGroup fo ro g.1)).map
          (fun g => g.2.length)).sum := by
      rw [run_dropped, hp]
    by_cases hik : ik = true
    · subst hik
      rw [if_pos rfl] at h
      cases hks : known_appendix n polyOf fo ro p1.knownResults with
      | error u => rw [hks] at h; cases h
      | ok ks =>
        rw [hks] at h
        simp only [Except.ok.injEq, Prod.mk.injEq] at h
        obtain ⟨hres, hstats⟩ := h
        subst hres
        subst hstats
        have hper : acceptedSize
            (List.insertionSort ResultLe ((pass2 n fo ro p1.groups).2 ++ ks)) =
            acceptedSize ((pass2 n fo ro p1.groups).2 ++ ks) :=
          acceptedSize_perm (List.perm_insertionSort _ _)
        have hks0 : acceptedSize ks = 0 :=
          acceptedSize_known_zero ks
            (fun r hr => (known_appendix_props n polyOf fo ro _ ks hks r hr).1)
        rw [hper, acceptedSize_append, hks0, hdrop]
        simp only []
        omega
    · rw [Bool.not_eq_true] at hik
      subst hik
      rw [if_neg (by simp)] at h
      simp only [Except.ok.injEq, Prod.mk.injEq] at h
      obtain ⟨hres, hstats⟩ := h
      subst hres
      subst hstats
      have hper : acceptedSize
          (List.insertionSort ResultLe (pass2 n fo ro p1.groups).2) =
          acceptedSize (pass2 n fo ro p1.groups).2 :=
        acceptedSize_perm (List.perm_insertionSort _ _)
      rw [hper, hdrop]
      simp only []
      omega

/-- Witness for C1 (amended): a one-graph run whose only polynomial
fails to solve; the merged skipped counter alone accounts for the
total. -/
theorem find_analytic_graphs_accounting_witness :
    (0 : Nat) + 1 + acceptedSize ([] : List ResultRec) +
      run_dropped 4 false [[(0, 1), (0, 2), (1, 2)]]
        (fun _ => Except.ok "p") (fun _ => []) (fun _ => none) = 1 ∧
    (1 : Nat) = 1 :=
  find_analytic_graphs_accounting 4 false [[(0, 1), (0, 2), (1, 2)]]
    (fun _ => Except.ok "p") (fun _ => []) (fun _ => none) [] ⟨1, 0, 1⟩ rfl

/-- C5 counterexample: two graphs enter the run; the polynomial oracle
fails only on the first (the triangle plus isolated vertex).  The whole
run aborts with an error instead of skipping that one graph and
returning results for the second. -/
theorem find_analytic_graphs_abort_counterexample :
    find_analytic_graphs 4 false
      [[(0, 1), (0, 2), (1, 2)], [(0, 1), (0, 2), (0, 3), (1, 2)]]
      (fun es => if es == [(0, 1), (0, 2), (1, 2)] then Except.error ()
        else Except.ok "q")
      (fun _ => []) (fun _ => some []) = Except.error () := by
  rfl

/-- C5 (amended): a failure of the characteristic-polynomial
construction/factoring oracle on any processed graph aborts the whole
run (there is no per-graph handler around `compute_characteristic_polynomial`);
only when that oracle succeeds on every graph does the run always
terminate normally with a result — in particular root-solving failures
(`rootsOf` returning `None` on any group) are never fatal. -/
theorem find_analytic_graphs_failure_isolation (n : Nat) (ik : Bool)
    (graphs : List (List (Nat × Nat)))
    (polyOf : List (Nat × Nat) → Except Unit String)
    (fo : String → List Factor)
    (ro : String → Option (List (SymExpr × Nat)))
    (h : ∀ es ∈ graphs, (polyOf es).isOk = true) :
    ∃ results stats,
      find_analytic_graphs n ik graphs polyOf fo ro = .ok (results, stats) := by
  rcases pass1_ok n ik polyOf graphs ⟨0, 0, [], []⟩ h with ⟨p1, hp1, hmem⟩
  have hknown : ∀ gd ∈ p1.knownResults, (polyOf gd.edges).isOk = true := by
    intro gd hgd
    rcases hmem gd hgd with hin | hin
    · simp at hin
    · exact h _ hin
  rcases known_appendix_ok n polyOf fo ro p1.knownResults hknown with ⟨ks, hks⟩
  rw [find_analytic_graphs, hp1]
  simp only []
  by_cases hik : ik = true
  · subst hik
    rw [if_pos rfl, hks]
    exact ⟨_, _, rfl⟩
  · rw [Bool.not_eq_true] at hik
    subst hik
    rw [if_neg (by simp)]
    exact ⟨_, _, rfl⟩

/-- Witness for C5 (amended): with a root solver that fails on every
group, the run still completes normally. -/
theorem find_analytic_graphs_failure_isolation_witness :
    ∃ results stats,
      find_analytic_graphs 4 false [[(0, 1), (0, 2), (1, 2)]]
        (fun _ => Except.ok "p") (fun _ => []) (fun _ => none) =
        .ok (results, stats) :=
  find_analytic_graphs_failure_isolation 4 false [[(0, 1), (0, 2), (1, 2)]]
    (fun _ => Except.ok "p") (fun _ => []) (fun _ => none) (by decide)

/-- C8: the pipeline is a pure function — two invocations with the same
arguments return the same value — and every successful run's result list
is sorted ascending by the key `(edge_count, polynomial)`, re-established
by the final sort independent of enumeration order. -/
theorem find_analytic_graphs_deterministic_sorted (n : Nat) (ik : Bool)
    (graphs : List (List (Nat × Nat)))
    (polyOf : List (Nat × Nat) → Except Unit String)
    (fo : String → List Factor)
    (ro : String → Option (List (SymExpr × Nat))) :
    find_analytic_graphs n ik graphs polyOf fo ro =
      find_analytic_graphs n ik graphs polyOf fo ro ∧
    ∀ results stats,
      find_analytic_graphs n ik graphs polyOf fo ro = .ok (results, stats) →
      List.Sorted (fun a b => result_le a b = true) results := by
  refine ⟨rfl, ?_⟩
  intro results stats h
  rw [find_analytic_graphs] at h
  cases hp : pass1 n ik polyOf graphs ⟨0, 0, [], []⟩ with
  | error u => rw [hp] at h; cases h
  | ok p1 =>
    rw [hp] at h
    simp only [] at h
    by_cases hik : ik = true
    · subst hik
      rw [if_pos rfl] at h
      cases hks : known_appendix n polyOf fo ro p1.knownResults with
      | error u => rw [hks] at h; cases h
      | ok ks =>
        rw [hks] at h
        simp only [Except.ok.injEq, Prod.mk.injEq] at h
        obtain ⟨hres, _⟩ := h
        subst hres
        exact List.sorted_insertionSort ResultLe _
    · rw [Bool.not_eq_true] at hik
      subst hik
      rw [if_neg (by simp)] at h
      simp only [Except.ok.injEq, Prod.mk.injEq] at h
      obtain ⟨hres, _⟩ := h
      subst hres
      exact List.sorted_insertionSort ResultLe _

/-- Witness for C8: a concrete empty run is equal to itself and its
result list is sorted. -/
theorem find_analytic_graphs_deterministic_sorted_witness :
    List.Sorted ResultLe ([] : List ResultRec) :=
  (find_analytic_graphs_deterministic_sorted 3 false []
    (fun _ => Except.ok "p") (fun _ => []) (fun _ => some [])).2 [] ⟨0, 0, 0⟩ rfl

/-- C10: machine-readable mode hardwires the include-known toggle to
`True` while the plain console branch leaves it at its default `False`,
and every known-family record in a successful json-mode output carries
`known_family = true` and `isomorphism_class_size = 1` regardless of the
actual size of its isomorphism class (the appendix writes the constant
`1`). -/
theorem json_mode_spec (n : Nat) (graphs : List (List (Nat × Nat)))
    (polyOf : List (Nat × Nat) → Except Unit String)
    (fo : String → List Factor)
    (ro : String → Option (List (SymExpr × Nat))) :
    json_mode n graphs polyOf fo ro =
      find_analytic_graphs n true graphs polyOf fo ro ∧
    console_run n graphs polyOf fo ro =
      find_analytic_graphs n false graphs polyOf fo ro ∧
    ∀ results stats, json_mode n graphs polyOf fo ro = .ok (results, stats) →
      ∀ r ∈ results, r.known_family = true → r.isomorphism_class_size = 1 := by
  refine ⟨rfl, rfl, ?_⟩
  intro results stats h r hr hknown
  rw [json_mode, find_analytic_graphs] at h
  cases hp : pass1 n true polyOf graphs ⟨0, 0, [], []⟩ with
  | error u => rw [hp] at h; cases h
  | ok p1 =>
    rw [hp] at h
    simp only [] at h
    rw [if_pos trivial] at h
    cases hks : known_appendix n polyOf fo ro p1.knownResults with
    | error u => rw [hks] at h; cases h
    | ok ks =>
      rw [hks] at h
      simp only [Except.ok.injEq, Prod.mk.injEq] at h
      obtain ⟨hres, _⟩ := h
      subst hres
      rw [(List.perm_insertionSort _ _).mem_iff] at hr
      rcases List.mem_append.mp hr with hr | hr
      · exact absurd hknown (by simp [pass2_not_known n fo ro p1.groups r hr])
      · exact (known_appendix_props n polyOf fo ro _ ks hks r hr).2

/-- Witness for C10: the single known-family record of a json-mode run on
`K_2` carries class size 1. -/
theorem json_mode_spec_witness :
    ({ n := 2, edges := [(0, 1)], edge_string := "0-1", edge_count := 1,
       adjacency_matrix := [[0, 1], [-1, 0]], polynomial := "p",
       eigenvalues := [], family := some "Complete graph K_2",
       known_family := true, isomorphism_class_size := 1 :
       ResultRec }).isomorphism_class_size = 1 :=
  (json_mode_spec 2 [[(0, 1)]] (fun _ => Except.ok "p") (fun _ => [])
      (fun _ => some [])).2.2 _ ⟨1, 1, 0⟩ rfl _ (by decide) rfl

end GraphEig

namespace UniVerify

lemma verify_positions_loop (l : List Row) (c : Nat) (d : List Row) :
    l.foldl (fun acc g => if row_is_correct g then (acc.1 + 1, acc.2)
      else (acc.1, acc.2 ++ [g])) (c, d) =
    (c + l.countP row_is_correct, d ++ l.filter (fun r => !row_is_correct r)) := by
  induction l generalizing c d with
  | nil => simp
  | cons g l ih =>
    by_cases h : row_is_correct g
    · simp only [List.foldl_cons, h, if_true, ih, List.countP_cons, List.filter_cons]
      simp [h]
      omega
    · simp only [List.foldl_cons, h, if_false, ih, List.countP_cons, List.filter_cons]
      simp [h]

/-- C9: a parsed row is counted as correct exactly when the Euclidean
distance between its actual position and the expected
`(n·8, ρ·15, (E−8)·8)` is strictly below the tolerance `0.1`, and it is
reported as a discrepancy exactly when that distance is at least `0.1`;
`verify_positions` counts the former and collects the latter, in order. -/
theorem verify_positions_spec (g : Row) (rows : List Row) :
    (row_is_correct g = true ↔
      Real.sqrt ((row_dist_sq g : ℚ) : ℝ) < 1 / 10) ∧
    (row_is_correct g = false ↔
      (1 / 10 : ℝ) ≤ Real.sqrt ((row_dist_sq g : ℚ) : ℝ)) ∧
    verify_positions rows =
      (rows.countP row_is_correct, rows.filter (fun r => !row_is_correct r)) := by
  have hb : row_is_correct g = true ↔ row_dist_sq g < 1 / 100 := by
    simp [row_is_correct]
  have hs : Real.sqrt ((row_dist_sq g : ℚ) : ℝ) < 1 / 10 ↔
      ((row_dist_sq g : ℚ) : ℝ) < (1 / 10 : ℝ) ^ 2 :=
    Real.sqrt_lt' (by norm_num)
  have hc : ((row_dist_sq g : ℚ) : ℝ) < (1 / 10 : ℝ) ^ 2 ↔
      row_dist_sq g < 1 / 100 := by
    rw [show ((1 : ℝ) / 10) ^ 2 = (((1 : ℚ) / 100 : ℚ) : ℝ) by norm_num]
    exact_mod_cast Iff.rfl
  have h1 : row_is_correct g = true ↔
      Real.sqrt ((row_dist_sq g : ℚ) : ℝ) < 1 / 10 :=
    hb.trans (hs.trans hc).symm
  refine ⟨h1, ?_, ?_⟩
  · rw [← Bool.not_eq_true, h1, not_lt]
  · rw [verify_positions, verify_positions_loop]
    simp

end UniVerify
